import Mathlib

/-!
Verification of the gocryptfs encrypted-storage engine against its
natural-language specification.  Byte strings are modelled as `List Nat`
(each element a byte value), machine integers as `Nat`/`Int`, fallible
operations as `Option`/`Except`.  The definitions are shallow embeddings
of the Go source files under `internal/contentenc`, `internal/configfile`,
`internal/parallelcrypto` and `internal/filenameauth`.
-/

namespace Gocryptfs

/-- Modelled from the spec: `cryptocore.AuthTagLen`, the GCM authentication
tag length in bytes.  The `cryptocore` constant declarations are not part of
the sources, but `contentenc/content.go` fixes the value through
`cipherBS = plainBS + IVLen + AuthTagLen` with the documented sizes
4128 = 4096 + 16 + 16. -/
def cryptocore.AuthTagLen : Nat := 16

/-- Modelled from the spec: `cryptocore.KeyLen`, the master/purpose key
length.  The spec states master key and purpose keys are 32 bytes, and the
repository's own tests check `KeyLen != 32` as an error. -/
def cryptocore.KeyLen : Nat := 32

/-- An AEAD backend as used by `contentenc`: `Seal nonce plaintext aad`
returns `ciphertext‖tag`; `Open nonce ciphertext aad` authenticates and
returns the plaintext, or `none` on authentication failure.  The concrete
ciphers (AES-GCM, XChaCha20-Poly1305, AES-SIV) live in the Go standard
library and `cryptocore`; the engine is parametric in them, so the model
keeps them abstract.  The key is captured inside `Seal`/`Open`. -/
structure AEADCipher where
  ivLen : Nat
  Seal : List Nat → List Nat → List Nat → List Nat
  Open : List Nat → List Nat → List Nat → Option (List Nat)

/-- Embeds the `ContentEnc` struct of `internal/contentenc/content.go`:
an AEAD backend plus the plaintext block size (the remaining Go fields are
memory pools and a parallelism handle, which carry no semantic state). -/
structure ContentEnc where
  aead : AEADCipher
  plainBS : Nat

/-- Ciphertext block size, as computed in `contentenc.New`:
`cipherBS := plainBS + IVLen + AuthTagLen`. -/
def ContentEnc.cipherBS (be : ContentEnc) : Nat :=
  be.plainBS + be.aead.ivLen + cryptocore.AuthTagLen

/-- The all-zero ciphertext block `allZeroBlock` kept by `ContentEnc` for
fast hole detection. -/
def ContentEnc.allZeroBlock (be : ContentEnc) : List Nat :=
  List.replicate be.cipherBS 0

/-- The all-zero nonce `allZeroNonce` kept by `ContentEnc`. -/
def ContentEnc.allZeroNonce (be : ContentEnc) : List Nat :=
  List.replicate be.aead.ivLen 0

/-- Embeds `binary.BigEndian.PutUint64`: the 8-byte big-endian encoding of
a block number.  Only the low 64 bits of `n` contribute, exactly as for the
Go `uint64` argument. -/
def beUint64 (n : Nat) : List Nat :=
  [n / 2 ^ 56 % 256, n / 2 ^ 48 % 256, n / 2 ^ 40 % 256, n / 2 ^ 32 % 256,
   n / 2 ^ 24 % 256, n / 2 ^ 16 % 256, n / 2 ^ 8 % 256, n % 256]

/-- Embeds `concatAD` of `content.go`: `aData = [blockNo.bigEndian fileID]`.
The Go function panics when a non-nil `fileID` does not have the 16-byte
header length; theorems carry that length as a hypothesis. -/
def concatAD (blockNo : Nat) (fileID : List Nat) : List Nat :=
  beUint64 blockNo ++ fileID

/-- Embeds `ContentEnc.DecryptBlock` of `content.go`, branch for branch:
empty ciphertext is passed through, a full-size all-zero block decrypts to
an all-zero plaintext block (file hole), short blocks and all-zero nonces
are rejected, and otherwise the AEAD opens `ciphertext[ivLen:]` under the
nonce `ciphertext[:ivLen]` with `concatAD blockNo fileID` as associated
data. -/
def ContentEnc.DecryptBlock (be : ContentEnc) (ciphertext : List Nat)
    (blockNo : Nat) (fileID : List Nat) : Except String (List Nat) :=
  if ciphertext = [] then
    Except.ok ciphertext
  else if ciphertext = be.allZeroBlock then
    Except.ok (List.replicate be.plainBS 0)
  else if ciphertext.length < be.aead.ivLen then
    Except.error "block is too short"
  else
    let nonce := ciphertext.take be.aead.ivLen
    if nonce = be.allZeroNonce then
      Except.error "all-zero nonce"
    else
      match be.aead.Open nonce (ciphertext.drop be.aead.ivLen)
          (concatAD blockNo fileID) with
      | some plaintext => Except.ok plaintext
      | none => Except.error "message authentication failed"

/-- Embeds `ContentEnc.doEncryptBlock` of `content.go`: empty plaintext is
returned unchanged; otherwise the output is `nonce ‖ Seal(nonce, plaintext,
concatAD blockNo fileID)`.  The Go panics (wrong nonce length, unexpected
ciphertext length) are carried as hypotheses of the theorems. -/
def ContentEnc.doEncryptBlock (be : ContentEnc) (plaintext : List Nat)
    (blockNo : Nat) (fileID : List Nat) (nonce : List Nat) : List Nat :=
  if plaintext = [] then plaintext
  else nonce ++ be.aead.Seal nonce plaintext (concatAD blockNo fileID)

/-- Embeds `ContentEnc.EncryptBlock`: in Go it draws a fresh random nonce
from `IVGenerator` and delegates to `doEncryptBlock`; the freshly drawn
nonce is modelled as an explicit argument. -/
def ContentEnc.EncryptBlock (be : ContentEnc) (plaintext : List Nat)
    (blockNo : Nat) (fileID : List Nat) (nonce : List Nat) : List Nat :=
  be.doEncryptBlock plaintext blockNo fileID nonce

/-- Flip bit `i` (little-endian within each byte) of a byte string; used to
state the single-bit-corruption claims. -/
def flipBit (bs : List Nat) (i : Nat) : List Nat :=
  bs.set (i / 8) (Nat.xor (bs.getD (i / 8) 0) (2 ^ (i % 8)))

/-- Embeds the `ScryptKDF` struct of `internal/configfile` (file shipping
scrypt support).  `N`, `R`, `P`, `KeyLen` are Go `int`s: an attacker-edited
config can carry arbitrary, even negative, values, so the model uses `Int`.
`Salt` only matters through its length. -/
structure ScryptKDF where
  Salt : List Nat
  N : Int
  R : Int
  P : Int
  KeyLen : Int

/-- Source constant `scryptMinR`. -/
def scryptMinR : Int := 8

/-- Source constant `scryptMinP`. -/
def scryptMinP : Int := 1

/-- Source constant `scryptMinLogN`. -/
def scryptMinLogN : Nat := 10

/-- Source constant `scryptMinSaltLen`. -/
def scryptMinSaltLen : Nat := 32

/-- Embeds `ScryptKDF.validateParams`: `some errorMessage` models the
returned `error`, `none` models `nil`. -/
def ScryptKDF.validateParams (s : ScryptKDF) : Option String :=
  if s.N < (2 ^ scryptMinLogN : Int) then
    some "fatal: scryptn below 10 is too low to make sense"
  else if s.R < scryptMinR then
    some "fatal: scrypt parameter R below minimum"
  else if s.P < scryptMinP then
    some "fatal: scrypt parameter P below minimum"
  else if s.Salt.length < scryptMinSaltLen then
    some "fatal: scrypt salt length below minimum"
  else if s.KeyLen < (cryptocore.KeyLen : Int) then
    some "fatal: scrypt parameter KeyLen below minimum"
  else
    none

/-- Embeds `ScryptKDF.DeriveKey`.  The call into `scrypt.Key` (external
library) is abstracted as the argument `scryptKey`; the
`os.Exit(exitcodes.ScryptParams)` taken on a validation error is modelled
as `none` (no key is ever derived on that path). -/
def ScryptKDF.DeriveKey (s : ScryptKDF)
    (scryptKey : List Nat → List Nat → Int → Int → Int → Int → List Nat)
    (pw : List Nat) : Option (List Nat) :=
  match s.validateParams with
  | some _ => none
  | none => some (scryptKey pw s.Salt s.N s.R s.P s.KeyLen)

/-- Embeds the `Argon2idKDF` struct of `internal/configfile/argon2.go`.
`Memory`, `Iterations` are Go `uint32` and `Parallelism` a `uint8`;
unsigned machine integers are modelled as `Nat`. -/
structure Argon2idKDF where
  Salt : List Nat
  Memory : Nat
  Iterations : Nat
  Parallelism : Nat
  KeyLen : Nat

/-- Source constant `Argon2idMinMemory` (16 MiB expressed in KB). -/
def Argon2idMinMemory : Nat := 16 * 1024

/-- Source constant `Argon2idMinIterations`. -/
def Argon2idMinIterations : Nat := 1

/-- Source constant `Argon2idMinParallelism`. -/
def Argon2idMinParallelism : Nat := 1

/-- Source constant `Argon2idMinSaltLen`. -/
def Argon2idMinSaltLen : Nat := 16

/-- Embeds `Argon2idKDF.validateParams`. -/
def Argon2idKDF.validateParams (a : Argon2idKDF) : Option String :=
  if a.Memory < Argon2idMinMemory then
    some "fatal: Argon2id memory below minimum"
  else if a.Iterations < Argon2idMinIterations then
    some "fatal: Argon2id iterations below minimum"
  else if a.Parallelism < Argon2idMinParallelism then
    some "fatal: Argon2id parallelism below minimum"
  else if a.Salt.length < Argon2idMinSaltLen then
    some "fatal: Argon2id salt length below minimum"
  else if a.KeyLen < cryptocore.KeyLen then
    some "fatal: Argon2id key length below minimum"
  else
    none

/-- Embeds `Argon2idKDF.DeriveKey`.  `argon2.IDKey` (external library) is
abstracted as the argument `idKey`; the `os.Exit` taken on a validation
error is modelled as `none`. -/
def Argon2idKDF.DeriveKey (a : Argon2idKDF)
    (idKey : List Nat → List Nat → Nat → Nat → Nat → Nat → List Nat)
    (pw : List Nat) : Option (List Nat) :=
  match a.validateParams with
  | some _ => none
  | none => some (idKey pw a.Salt a.Iterations a.Memory a.Parallelism a.KeyLen)

/-- Source constant `ParallelThreshold` of the `parallelcrypto` package
revision used by `contentenc` (the one providing `ShouldUseBatch` and
`ProcessBlocksOptimized`). -/
def ParallelThreshold : Nat := 4

/-- Source constant `MaxParallelWorkers`. -/
def MaxParallelWorkers : Nat := 16

/-- Source constant `MinParallelWorkers`. -/
def MinParallelWorkers : Nat := 2

/-- Source constant `BatchThreshold`. -/
def BatchThreshold : Nat := 2

/-- Embeds the `ParallelCrypto` struct: an enabled flag, the CPU count
sampled from `runtime.NumCPU()`, and the CPU-feature flags filled in by
`detectCPUFeatures`. -/
structure ParallelCrypto where
  enabled : Bool
  cpuCount : Nat
  hasAVX : Bool
  hasAVX2 : Bool
  hasAES : Bool

/-- Embeds `parallelcrypto.New` composed with `detectCPUFeatures`: the
instance is enabled and all three CPU-feature flags are unconditionally set
to `true` (the Go detection is a stub that assumes modern CPUs).
`runtime.NumCPU()` is modelled as the explicit argument `cpuCount`. -/
def ParallelCrypto.New (cpuCount : Nat) : ParallelCrypto :=
  { enabled := true, cpuCount := cpuCount,
    hasAVX := true, hasAVX2 := true, hasAES := true }

/-- Embeds `ParallelCrypto.ShouldUseParallel`. -/
def ParallelCrypto.ShouldUseParallel (pc : ParallelCrypto)
    (blockCount : Nat) : Bool :=
  if !pc.enabled then false
  else if pc.cpuCount < MinParallelWorkers then false
  else decide (ParallelThreshold ≤ blockCount)

/-- Models the Go expression `int(float64(workers) * 1.5)` for
`workers ≥ 0`: the float64 product is exact (1.5 is a dyadic rational and
`3 * workers ≤ 2^53` for every realistic CPU count), and the `int`
conversion truncates, so the result is `3 * workers / 2` in `Nat`. -/
def intTimes15 (workers : Nat) : Nat := 3 * workers / 2

/-- Models the Go expression `int(float64(workers) * 1.2)` as
`6 * workers / 5`.  The float64 constant 1.2 is not exactly representable,
so this branch can differ by one for some inputs; it is unreachable for
instances produced by `New`, whose `hasAVX2 && hasAES` is always `true`,
and no theorem depends on it. -/
def intTimes12 (workers : Nat) : Nat := 6 * workers / 5

/-- Embeds `ParallelCrypto.GetOptimalWorkerCount` of the revision used by
`contentenc`: below the threshold (or disabled, or on a single-CPU
machine) it returns 1; otherwise it starts from the CPU count, scales by
the CPU-feature factor, caps at `MaxParallelWorkers` and then at the block
count. -/
def ParallelCrypto.GetOptimalWorkerCount (pc : ParallelCrypto)
    (blockCount : Nat) : Nat :=
  if !pc.enabled then 1
  else if blockCount < ParallelThreshold then 1
  else if pc.cpuCount < MinParallelWorkers then 1
  else
    let workers := pc.cpuCount
    let workers := if pc.hasAVX2 && pc.hasAES then intTimes15 workers
      else if pc.hasAVX then intTimes12 workers
      else workers
    let workers := if workers > MaxParallelWorkers then MaxParallelWorkers
      else workers
    let workers := if workers > blockCount then blockCount else workers
    workers

/-- Embeds `ParallelCrypto.ProcessBlocksParallel`.  In Go, `processFunc`
is run for its effects on disjoint index shards by `workers` goroutines
that are all joined before the call returns; here each invocation returns
the list of its per-shard results and the invocations are concatenated in
worker order.  `processFunc startIdx endIdx` covers the half-open index
range `[startIdx, endIdx)`; the shard boundaries are exactly the Go ones:
`groupSize := blockCount / workers`, worker `w` gets
`[w*groupSize, (w+1)*groupSize)` and the last worker's end index is
`blockCount`. -/
def ParallelCrypto.ProcessBlocksParallel {α : Type}
    (pc : ParallelCrypto) (blockCount : Nat)
    (processFunc : Nat → Nat → List α) : List α :=
  if pc.ShouldUseParallel blockCount then
    let workers := pc.GetOptimalWorkerCount blockCount
    let groupSize := blockCount / workers
    (List.range workers).flatMap fun workerID =>
      processFunc (workerID * groupSize)
        (if workerID = workers - 1 then blockCount
         else (workerID + 1) * groupSize)
  else
    processFunc 0 blockCount

/-- Embeds the per-shard loop body of `ContentEnc.decryptBlocksParallel`:
worker shard `[startIdx, endIdx)` decrypts `cipherBlocks[i]` with block
number `firstBlockNo + i` for `i` in the shard.  In Go each result is
stored at `plainBlocks[i]` and the array is concatenated in index order;
here the per-shard result lists are concatenated in shard order, and the
ordering theorem shows the two agree. -/
def ContentEnc.decryptBlocksParallel (be : ContentEnc)
    (pc : ParallelCrypto) (cipherBlocks : List (List Nat))
    (firstBlockNo : Nat) (fileID : List Nat) :
    List (Except String (List Nat)) :=
  pc.ProcessBlocksParallel cipherBlocks.length fun startIdx endIdx =>
    (List.range' startIdx (endIdx - startIdx)).map fun i =>
      be.DecryptBlock (cipherBlocks.getD i []) (firstBlockNo + i) fileID

/-- The base64url alphabet of Go's `base64.URLEncoding`, as a map from the
6-bit value to the ASCII code (`A-Z`, `a-z`, `0-9`, `-`, `_`); inputs
outside `0..63` never occur and map to `A`. -/
def b64EncChar (v : Nat) : Nat :=
  if v < 26 then 65 + v
  else if v < 52 then 97 + (v - 26)
  else if v < 62 then 48 + (v - 52)
  else if v = 62 then 45
  else if v = 63 then 95
  else 65

/-- Inverse alphabet map used when decoding: ASCII code to 6-bit value,
`none` for characters outside the base64url alphabet (including the
padding character `=`). -/
def b64DecVal (c : Nat) : Option Nat :=
  if 65 ≤ c ∧ c ≤ 90 then some (c - 65)
  else if 97 ≤ c ∧ c ≤ 122 then some (c - 97 + 26)
  else if 48 ≤ c ∧ c ≤ 57 then some (c - 48 + 52)
  else if c = 45 then some 62
  else if c = 95 then some 63
  else none

/-- Embeds `base64.URLEncoding.EncodeToString`: standard padded base64
over the URL alphabet, three input bytes per four output characters, with
`=` (ASCII 61) padding for a final one- or two-byte group. -/
def encodeB64 : List Nat → List Nat
  | [] => []
  | [b0] =>
    [b64EncChar (b0 / 4), b64EncChar (b0 % 4 * 16), 61, 61]
  | [b0, b1] =>
    [b64EncChar (b0 / 4), b64EncChar (b0 % 4 * 16 + b1 / 16),
     b64EncChar (b1 % 16 * 4), 61]
  | b0 :: b1 :: b2 :: rest =>
    [b64EncChar (b0 / 4), b64EncChar (b0 % 4 * 16 + b1 / 16),
     b64EncChar (b1 % 16 * 4 + b2 / 64), b64EncChar (b2 % 64)] ++
      encodeB64 rest

/-- Decodes the newline-free character stream of a base64 input, one
four-character quantum at a time: padding `=` may close the final quantum
only, characters outside the alphabet are rejected, and — as in Go's
non-strict decoder — unused trailing bits of the final quantum are ignored
rather than required to be zero.  `decodeB64` below feeds this the input
with `\r`/`\n` already skipped, as Go's `decodeQuantum` does on the fly. -/
def decodeB64Quanta : List Nat → Option (List Nat)
  | [] => some []
  | c0 :: c1 :: c2 :: c3 :: rest =>
    match b64DecVal c0, b64DecVal c1 with
    | some v0, some v1 =>
      if c2 = 61 then
        if c3 = 61 ∧ rest = [] then some [v0 * 4 + v1 / 16] else none
      else
        match b64DecVal c2 with
        | some v2 =>
          if c3 = 61 then
            if rest = [] then
              some [v0 * 4 + v1 / 16, v1 % 16 * 16 + v2 / 4]
            else none
          else
            match b64DecVal c3 with
            | some v3 =>
              (decodeB64Quanta rest).map fun bs =>
                (v0 * 4 + v1 / 16) :: (v1 % 16 * 16 + v2 / 4) ::
                  (v2 % 4 * 64 + v3) :: bs
            | none => none
        | none => none
    | _, _ => none
  | _ => none

/-- Embeds `base64.URLEncoding.DecodeString` in its default (non-strict)
mode.  Go's `decodeQuantum` skips `\n` (10) and `\r` (13) bytes anywhere
in the input — the package documents that new-line characters are ignored,
even in strict mode — which is modelled by filtering them out before the
quantum decoding; everything else (quantum structure, terminal-only `=`
padding, rejection of characters outside the alphabet, acceptance of
non-zero unused trailing bits) is handled by `decodeB64Quanta`. -/
def decodeB64 (s : List Nat) : Option (List Nat) :=
  decodeB64Quanta (s.filter fun c => c != 10 && c != 13)

/-- The `FilenameAuthSeparator` constant `"."` as a byte. -/
def FilenameAuthSeparator : Nat := 46

/-- Embeds the `FilenameAuth` struct of `internal/filenameauth`: the
enabled flag and `calculateMAC`, the HMAC-SHA256 of the input under the
MAC key derived from the master key via HKDF.  HMAC-SHA256 is a Go
standard-library primitive, so the model keeps it abstract (the derived
key is captured inside the function). -/
structure FilenameAuth where
  enabled : Bool
  calculateMAC : List Nat → List Nat

/-- Embeds `FilenameAuth.AuthenticateFilename`: when enabled, append
`"." ++ base64url(MAC(encryptedName))`; the Go error result is always
`nil` and is dropped. -/
def FilenameAuth.AuthenticateFilename (fa : FilenameAuth)
    (encryptedName : List Nat) : List Nat :=
  if fa.enabled then
    encryptedName ++ FilenameAuthSeparator ::
      encodeB64 (fa.calculateMAC encryptedName)
  else encryptedName

/-- Index of the last separator byte in a name, scanning from the end as
the Go loop in `splitAuthenticatedName` does. -/
def lastIndexOfSep : List Nat → Option Nat
  | [] => none
  | c :: rest =>
    match lastIndexOfSep rest with
    | some i => some (i + 1)
    | none => if c = FilenameAuthSeparator then some 0 else none

/-- Embeds `splitAuthenticatedName`: split at the last `.`; a name without
a separator comes back as a single part. -/
def splitAuthenticatedName (authenticatedName : List Nat) :
    List (List Nat) :=
  match lastIndexOfSep authenticatedName with
  | none => [authenticatedName]
  | some i => [authenticatedName.take i, authenticatedName.drop (i + 1)]

/-- Embeds `FilenameAuth.VerifyFilename`: when enabled, split off the MAC
suffix, base64-decode it, recompute the MAC of the prefix and compare
(`hmac.Equal` is plain constant-time byte equality); return the prefix on
success. -/
def FilenameAuth.VerifyFilename (fa : FilenameAuth)
    (authenticatedName : List Nat) : Except String (List Nat) :=
  if fa.enabled then
    match splitAuthenticatedName authenticatedName with
    | [encryptedName, macB64] =>
      match decodeB64 macB64 with
      | none => Except.error "failed to decode MAC"
      | some mac =>
        if mac = fa.calculateMAC encryptedName then Except.ok encryptedName
        else Except.error "filename authentication failed: MAC mismatch"
    | _ => Except.error "invalid authenticated filename format"
  else Except.ok authenticatedName

/-- A concrete toy AEAD backend used only to instantiate theorems at
concrete inputs: 2-byte nonces, a 16-byte checksum tag over nonce,
plaintext and associated data.  `Open` inverts `Seal` exactly. -/
def toyAead : AEADCipher where
  ivLen := 2
  Seal := fun nonce pt ad =>
    pt ++ (nonce.sum * 7 + pt.sum * 3 + ad.sum) % 256 :: List.replicate 15 0
  Open := fun nonce ct ad =>
    if ct.length < 16 then none
    else
      let pt := ct.take (ct.length - 16)
      if ct = pt ++ (nonce.sum * 7 + pt.sum * 3 + ad.sum) % 256 ::
          List.replicate 15 0 then some pt
      else none

/-- A concrete `ContentEnc` over the toy AEAD with a 4-byte plaintext
block size (so `cipherBS = 22`). -/
def toyBe : ContentEnc where
  aead := toyAead
  plainBS := 4

/-- A concrete 16-byte file ID for witnesses. -/
def fid16 : List Nat := List.replicate 16 3

/-- A concrete enabled `FilenameAuth` whose MAC function returns 32 bytes
(the HMAC-SHA256 output length), used to instantiate theorems. -/
def toyFa : FilenameAuth where
  enabled := true
  calculateMAC := fun name => (name.sum + name.length) % 256 :: List.replicate 31 0

/-- A second toy `FilenameAuth` whose MAC is all-zero, used for the
base64 non-canonicity counterexample. -/
def toyFaZero : FilenameAuth where
  enabled := true
  calculateMAC := fun _ => List.replicate 32 0

theorem flipBit_length (bs : List Nat) (i : Nat) :
    (flipBit bs i).length = bs.length := by
  simp [flipBit]

theorem cipherBS_pos (be : ContentEnc) : 0 < be.cipherBS := by
  simp [ContentEnc.cipherBS, cryptocore.AuthTagLen]

theorem ivLen_le_cipherBS (be : ContentEnc) : be.aead.ivLen ≤ be.cipherBS := by
  simp [ContentEnc.cipherBS]
  omega

/-- C1: a full-size all-zero ciphertext block decrypts to an all-zero
plaintext block of `plainBS` bytes with no error, for every `ContentEnc`
instance (hence every AEAD backend and key), every block number and every
file ID; the AEAD `Open` is never consulted on this input. -/
theorem decryptBlock_hole_passthrough (be : ContentEnc) (blockNo : Nat)
    (fileID : List Nat) :
    be.DecryptBlock (List.replicate be.cipherBS 0) blockNo fileID =
      Except.ok (List.replicate be.plainBS 0) := by
  have hpos := cipherBS_pos be
  have hne : List.replicate be.cipherBS (0 : Nat) ≠ [] := by
    intro h
    have hlen := congrArg List.length h
    simp at hlen
    omega
  simp [ContentEnc.DecryptBlock, ContentEnc.allZeroBlock, hne]

/-- If a nonce of the configured length is not all-zero, the length is
positive. -/
theorem ivLen_pos_of_nonce_ne_zero (be : ContentEnc) (nonce : List Nat)
    (hnlen : nonce.length = be.aead.ivLen)
    (hnz : nonce ≠ List.replicate be.aead.ivLen 0) : 0 < be.aead.ivLen := by
  rcases Nat.eq_zero_or_pos be.aead.ivLen with h0 | h
  · exfalso
    apply hnz
    rw [h0] at hnlen ⊢
    simpa using List.eq_nil_of_length_eq_zero hnlen
  · exact h

/-- C2: encrypt-then-decrypt round-trips bit for bit.  For every plaintext
of at most one block, every block number and file ID, and every freshly
drawn nonce of the configured length that is not all-zero, decrypting the
output of `EncryptBlock` returns exactly the plaintext with no error.  The
hypothesis `hopen` is the AEAD correctness property (`Open` inverts
`Seal`), which the engine assumes of its cipher backends. -/
theorem encryptBlock_decryptBlock_roundtrip (be : ContentEnc)
    (pt nonce : List Nat) (blockNo : Nat) (fileID : List Nat)
    (hlen : pt.length ≤ be.plainBS)
    (hnlen : nonce.length = be.aead.ivLen)
    (hnz : nonce ≠ List.replicate be.aead.ivLen 0)
    (hopen : be.aead.Open nonce
      (be.aead.Seal nonce pt (concatAD blockNo fileID))
      (concatAD blockNo fileID) = some pt) :
    be.DecryptBlock (be.EncryptBlock pt blockNo fileID nonce) blockNo
      fileID = Except.ok pt := by
  by_cases hpt : pt = []
  · subst hpt
    simp [ContentEnc.EncryptBlock, ContentEnc.doEncryptBlock,
      ContentEnc.DecryptBlock]
  · have hivpos := ivLen_pos_of_nonce_ne_zero be nonce hnlen hnz
    have henc : be.EncryptBlock pt blockNo fileID nonce =
        nonce ++ be.aead.Seal nonce pt (concatAD blockNo fileID) := by
      simp [ContentEnc.EncryptBlock, ContentEnc.doEncryptBlock, hpt]
    set s := be.aead.Seal nonce pt (concatAD blockNo fileID) with hs
    have htake : (nonce ++ s).take be.aead.ivLen = nonce :=
      List.take_left' hnlen
    have hdrop : (nonce ++ s).drop be.aead.ivLen = s :=
      List.drop_left' hnlen
    have hctlen : (nonce ++ s).length = be.aead.ivLen + s.length := by
      simp [hnlen]
    have hctne : nonce ++ s ≠ [] := by
      intro h
      have := congrArg List.length h
      simp [hctlen] at this
      omega
    have hnotzero : nonce ++ s ≠ be.allZeroBlock := by
      intro h
      apply hnz
      have h1 : (nonce ++ s).take be.aead.ivLen =
          (be.allZeroBlock).take be.aead.ivLen := by rw [h]
      rw [htake, ContentEnc.allZeroBlock, List.take_replicate,
        Nat.min_eq_left (ivLen_le_cipherBS be)] at h1
      exact h1
    have hnotshort : ¬(nonce ++ s).length < be.aead.ivLen := by
      rw [hctlen]; omega
    have hnzn : (nonce ++ s).take be.aead.ivLen ≠ be.allZeroNonce := by
      rw [htake]; exact hnz
    rw [henc]
    unfold ContentEnc.DecryptBlock
    rw [if_neg hctne, if_neg hnotzero, if_neg hnotshort]
    simp only [if_neg hnzn]
    rw [hdrop, htake, hopen]

/-- C10: the empty block round-trips outside the AEAD: `doEncryptBlock`
(and hence `EncryptBlock`) maps the empty plaintext to the empty
ciphertext — no nonce, header or tag is emitted — and `DecryptBlock` maps
the empty ciphertext back to the empty plaintext with no error, even
though its length is below the nonce size. -/
theorem empty_block_roundtrip (be : ContentEnc) (blockNo : Nat)
    (fileID nonce : List Nat) :
    be.doEncryptBlock [] blockNo fileID nonce = [] ∧
    be.EncryptBlock [] blockNo fileID nonce = [] ∧
    be.DecryptBlock [] blockNo fileID = Except.ok [] := by
  refine ⟨?_, ?_, ?_⟩ <;>
    simp [ContentEnc.doEncryptBlock, ContentEnc.EncryptBlock,
      ContentEnc.DecryptBlock]

/-- C5 (counterexample): the claim quantifies over every ciphertext whose
length is below the nonce size, including the empty one; but
`DecryptBlock` returns the empty plaintext with **no error** on the empty
ciphertext, which satisfies all the claim's premises (shorter than the
nonce, not the full-length all-zero block). -/
theorem decryptBlock_empty_not_rejected :
    toyBe.DecryptBlock [] 5 fid16 = Except.ok [] ∧
    ([] : List Nat).length < toyBe.aead.ivLen ∧
    ([] : List Nat) ≠ List.replicate toyBe.cipherBS 0 := by
  refine ⟨rfl, by decide, by decide⟩

/-- C5 (amended): for every **non-empty** ciphertext that is not the
full-length all-zero block, `DecryptBlock` returns an error and no
plaintext whenever the ciphertext is shorter than the nonce length or its
first nonce-length bytes are all zero. -/
theorem decryptBlock_rejects_short_or_zero_nonce (be : ContentEnc)
    (ct : List Nat) (blockNo : Nat) (fileID : List Nat)
    (h1 : ct ≠ [])
    (h2 : ct ≠ List.replicate be.cipherBS 0)
    (h3 : ct.length < be.aead.ivLen ∨
      ct.take be.aead.ivLen = List.replicate be.aead.ivLen 0) :
    ∃ e, be.DecryptBlock ct blockNo fileID = Except.error e := by
  unfold ContentEnc.DecryptBlock
  rw [if_neg h1, if_neg (by simpa [ContentEnc.allZeroBlock] using h2)]
  by_cases hshort : ct.length < be.aead.ivLen
  · exact ⟨"block is too short", by rw [if_pos hshort]⟩
  · have hz : ct.take be.aead.ivLen = List.replicate be.aead.ivLen 0 := by
      rcases h3 with h | h
      · exact absurd h hshort
      · exact h
    refine ⟨"all-zero nonce", ?_⟩
    rw [if_neg hshort]
    simp only [ContentEnc.allZeroNonce, if_pos hz]

/-- C5 (witness): the amended rejection applied at a concrete ciphertext
with an all-zero nonce prefix. -/
theorem decryptBlock_rejects_witness :
    ∃ e, toyBe.DecryptBlock [0, 0, 9] 5 fid16 = Except.error e :=
  decryptBlock_rejects_short_or_zero_nonce toyBe [0, 0, 9] 5 fid16
    (by decide) (by decide) (Or.inr (by decide))

/-- C2 (witness): the round-trip theorem applied at a concrete plaintext,
nonce, block number and file ID over the toy AEAD. -/
theorem encryptBlock_decryptBlock_roundtrip_witness :
    toyBe.DecryptBlock (toyBe.EncryptBlock [1, 2] 1 fid16 [7, 9]) 1 fid16 =
      Except.ok [1, 2] :=
  encryptBlock_decryptBlock_roundtrip toyBe [1, 2] [7, 9] 1 fid16
    (by decide) (by decide) (by decide) (by decide)

/-- C3 (counterexample): a single bit flip can turn the stored nonce into
the all-zero sentinel; `DecryptBlock` then returns the distinct
`all-zero nonce` error before ever consulting the AEAD, not the
authentication-failure error the claim names — even though the flipped
block is not the full-length all-zero block. -/
theorem bitflip_zero_nonce_counterexample :
    toyBe.DecryptBlock (flipBit (toyBe.EncryptBlock [1, 2] 1 fid16 [1, 0]) 0)
      1 fid16 = Except.error "all-zero nonce" ∧
    flipBit (toyBe.EncryptBlock [1, 2] 1 fid16 [1, 0]) 0 ≠
      List.replicate toyBe.cipherBS 0 ∧
    (0 : Nat) < 8 * (toyBe.EncryptBlock [1, 2] 1 fid16 [1, 0]).length := by
  refine ⟨rfl, by decide, by decide⟩

/-- C3 (amended): flipping any single bit of a ciphertext block produced
by `EncryptBlock` (non-empty plaintext, nonce of the configured length,
tag-length `Seal` output) yields a block on which `DecryptBlock` returns
an error and no plaintext; the error is the authentication failure except
when the flip lands in the nonce and zeroes it, where the all-zero-nonce
sentinel error is returned instead.  `hrej` is the AEAD authenticity
property at the corrupted input (a bit-flipped AES-GCM block fails to
verify), which the engine assumes of its cipher backends. -/
theorem bitflip_causes_decrypt_failure (be : ContentEnc)
    (pt nonce : List Nat) (blockNo : Nat) (fileID : List Nat)
    (i : Nat) (ct' : List Nat)
    (hpt : pt ≠ [])
    (hnlen : nonce.length = be.aead.ivLen)
    (hslen : (be.aead.Seal nonce pt (concatAD blockNo fileID)).length =
      pt.length + cryptocore.AuthTagLen)
    (hct : ct' = flipBit (be.EncryptBlock pt blockNo fileID nonce) i)
    (hi : i < 8 * (be.EncryptBlock pt blockNo fileID nonce).length)
    (hne0 : ct' ≠ List.replicate be.cipherBS 0)
    (hrej : be.aead.Open (ct'.take be.aead.ivLen)
      (ct'.drop be.aead.ivLen) (concatAD blockNo fileID) = none) :
    (∃ e, be.DecryptBlock ct' blockNo fileID = Except.error e) ∧
    (ct'.take be.aead.ivLen ≠ List.replicate be.aead.ivLen 0 →
      be.DecryptBlock ct' blockNo fileID =
        Except.error "message authentication failed") := by
  have henc : be.EncryptBlock pt blockNo fileID nonce =
      nonce ++ be.aead.Seal nonce pt (concatAD blockNo fileID) := by
    simp [ContentEnc.EncryptBlock, ContentEnc.doEncryptBlock, hpt]
  have hctlen : ct'.length =
      be.aead.ivLen + pt.length + cryptocore.AuthTagLen := by
    rw [hct, flipBit_length, henc]
    simp [hslen, hnlen]
    omega
  have hctne : ct' ≠ [] := by
    intro h
    have := congrArg List.length h
    rw [hctlen] at this
    simp [cryptocore.AuthTagLen] at this
  have hnotshort : ¬ct'.length < be.aead.ivLen := by
    rw [hctlen]; omega
  unfold ContentEnc.DecryptBlock
  rw [if_neg hctne, if_neg (by simpa [ContentEnc.allZeroBlock] using hne0),
    if_neg hnotshort]
  by_cases hz : ct'.take be.aead.ivLen = List.replicate be.aead.ivLen 0
  · refine ⟨⟨"all-zero nonce", ?_⟩, ?_⟩
    · simp only [ContentEnc.allZeroNonce, if_pos hz]
    · intro hcontra; exact absurd hz hcontra
  · rw [if_neg (by simpa [ContentEnc.allZeroNonce] using hz), hrej]
    exact ⟨⟨"message authentication failed", rfl⟩, fun _ => rfl⟩

/-- C3 (witness): the amended theorem applied at a concrete block with a
bit flipped inside the tag region; decryption returns the authentication
failure. -/
theorem bitflip_causes_decrypt_failure_witness :
    toyBe.DecryptBlock (flipBit (toyBe.EncryptBlock [1, 2] 1 fid16 [7, 9]) 40)
      1 fid16 = Except.error "message authentication failed" :=
  (bitflip_causes_decrypt_failure toyBe [1, 2] [7, 9] 1 fid16 40
    (flipBit (toyBe.EncryptBlock [1, 2] 1 fid16 [7, 9]) 40)
    (by decide) (by decide) (by decide) rfl (by decide) (by decide)
    (by decide)).2 (by decide)

/-- C4: `concatAD` produces exactly the 8-byte big-endian block number
followed by the 16-byte file ID — 24 bytes whose leading part re-evaluates
(big-endian) to the block number modulo 2^64 — and this value is the
associated data handed to the AEAD on both the encrypt path
(`doEncryptBlock`) and the decrypt path (`DecryptBlock`). -/
theorem concatAD_spec (be : ContentEnc) (blockNo : Nat) (fileID : List Nat)
    (hfid : fileID.length = 16) :
    concatAD blockNo fileID = beUint64 blockNo ++ fileID ∧
    (concatAD blockNo fileID).length = 24 ∧
    List.foldl (fun a b => 256 * a + b) 0 (beUint64 blockNo) =
      blockNo % 2 ^ 64 ∧
    (∀ pt nonce, pt ≠ [] →
      be.doEncryptBlock pt blockNo fileID nonce =
        nonce ++ be.aead.Seal nonce pt (concatAD blockNo fileID)) ∧
    (∀ ct, ct ≠ [] → ct ≠ List.replicate be.cipherBS 0 →
      ¬ct.length < be.aead.ivLen →
      ct.take be.aead.ivLen ≠ List.replicate be.aead.ivLen 0 →
      be.DecryptBlock ct blockNo fileID =
        (be.aead.Open (ct.take be.aead.ivLen) (ct.drop be.aead.ivLen)
          (concatAD blockNo fileID)).elim
          (Except.error "message authentication failed") Except.ok) := by
  refine ⟨rfl, ?_, ?_, ?_, ?_⟩
  · simp [concatAD, beUint64, hfid]
  · simp only [beUint64, List.foldl]
    omega
  · intro pt nonce hpt
    simp [ContentEnc.doEncryptBlock, hpt]
  · intro ct h1 h2 h3 h4
    unfold ContentEnc.DecryptBlock
    rw [if_neg h1, if_neg (by simpa [ContentEnc.allZeroBlock] using h2),
      if_neg h3, if_neg (by simpa [ContentEnc.allZeroNonce] using h4)]
    cases be.aead.Open (ct.take be.aead.ivLen) (ct.drop be.aead.ivLen)
      (concatAD blockNo fileID) <;> rfl

/-- C4 (witness): the associated-data theorem applied at block number 1
and the concrete 16-byte file ID, with the decrypt-path conjunct
instantiated at a concrete ciphertext. -/
theorem concatAD_spec_witness :
    concatAD 1 fid16 = beUint64 1 ++ fid16 ∧
    toyBe.DecryptBlock [1, 0, 5] 1 fid16 =
      (toyBe.aead.Open ([1, 0, 5].take toyBe.aead.ivLen)
        ([1, 0, 5].drop toyBe.aead.ivLen) (concatAD 1 fid16)).elim
        (Except.error "message authentication failed") Except.ok :=
  ⟨(concatAD_spec toyBe 1 fid16 (by decide)).1,
   (concatAD_spec toyBe 1 fid16 (by decide)).2.2.2.2 [1, 0, 5]
     (by decide) (by decide) (by decide) (by decide)⟩

/-- C6: `validateParams` of both KDFs errors exactly when some parameter
is below its floor (scrypt: `N < 2^10`, `R < 8`, `P < 1`, salt < 32 bytes,
`KeyLen < 32`; Argon2id: memory < 16 MiB, iterations < 1, parallelism < 1,
salt < 16 bytes, `KeyLen < 32`), and `DeriveKey` never derives a key from
parameters that fail this validation — it takes the weak-parameters exit
path instead, for every choice of the underlying derivation function and
password. -/
theorem kdf_validateParams_floors (s : ScryptKDF) (a : Argon2idKDF) :
    (s.validateParams ≠ none ↔
      s.N < 1024 ∨ s.R < 8 ∨ s.P < 1 ∨ s.Salt.length < 32 ∨
        s.KeyLen < 32) ∧
    (a.validateParams ≠ none ↔
      a.Memory < 16384 ∨ a.Iterations < 1 ∨ a.Parallelism < 1 ∨
        a.Salt.length < 16 ∨ a.KeyLen < 32) ∧
    (∀ scryptKey pw, s.validateParams ≠ none →
      s.DeriveKey scryptKey pw = none) ∧
    (∀ idKey pw, a.validateParams ≠ none → a.DeriveKey idKey pw = none) := by
  refine ⟨?_, ?_, ?_, ?_⟩
  · unfold ScryptKDF.validateParams
    simp only [scryptMinR, scryptMinP, scryptMinLogN, scryptMinSaltLen,
      cryptocore.KeyLen]
    norm_num
    split_ifs <;> simp <;> omega
  · unfold Argon2idKDF.validateParams
    simp only [Argon2idMinMemory, Argon2idMinIterations,
      Argon2idMinParallelism, Argon2idMinSaltLen, cryptocore.KeyLen]
    norm_num
    split_ifs <;> simp <;> omega
  · intro scryptKey pw h
    unfold ScryptKDF.DeriveKey
    cases hv : s.validateParams with
    | some e => rfl
    | none => exact absurd hv h
  · intro idKey pw h
    unfold Argon2idKDF.DeriveKey
    cases hv : a.validateParams with
    | some e => rfl
    | none => exact absurd hv h

/-- C6 (witness): the floor characterisation and the derivation guard
applied to concrete below-floor parameter sets. -/
theorem kdf_validateParams_floors_witness :
    ((ScryptKDF.mk (List.replicate 32 1) 0 8 1 32).validateParams ≠ none) ∧
    (ScryptKDF.mk (List.replicate 32 1) 0 8 1 32).DeriveKey
      (fun _ _ _ _ _ _ => []) [] = none ∧
    (Argon2idKDF.mk (List.replicate 16 1) 0 3 4 32).DeriveKey
      (fun _ _ _ _ _ _ => []) [] = none :=
  ⟨(kdf_validateParams_floors (ScryptKDF.mk (List.replicate 32 1) 0 8 1 32)
      (Argon2idKDF.mk (List.replicate 16 1) 0 3 4 32)).1.mpr
      (Or.inl (by decide)),
   (kdf_validateParams_floors (ScryptKDF.mk (List.replicate 32 1) 0 8 1 32)
      (Argon2idKDF.mk (List.replicate 16 1) 0 3 4 32)).2.2.1
      (fun _ _ _ _ _ _ => []) [] (by decide),
   (kdf_validateParams_floors (ScryptKDF.mk (List.replicate 32 1) 0 8 1 32)
      (Argon2idKDF.mk (List.replicate 16 1) 0 3 4 32)).2.2.2
      (fun _ _ _ _ _ _ => []) [] (by decide)⟩

/-- C7 (counterexample): on an enabled instance with 4 CPUs and 8 blocks
(both above the parallel floor and threshold), `GetOptimalWorkerCount`
returns 6 — the CPU count scaled by the 1.5 feature factor — which differs
from the claimed `min(max_workers, cpus_available, blockCount) =
min(16, 4, 8) = 4`. -/
theorem getOptimalWorkerCount_counterexample :
    (ParallelCrypto.New 4).GetOptimalWorkerCount 8 = 6 ∧
    (ParallelCrypto.New 4).GetOptimalWorkerCount 8 ≠
      min (min MaxParallelWorkers 4) 8 ∧
    (ParallelCrypto.New 4).enabled = true ∧
    MinParallelWorkers ≤ (ParallelCrypto.New 4).cpuCount ∧
    ParallelThreshold ≤ 8 := by
  decide

/-- C7 (amended): for every instance produced by `New` (which always
detects AVX2 and AES) with at least `MinParallelWorkers` CPUs and a block
count at or above `ParallelThreshold`, `GetOptimalWorkerCount` equals
`min(min(MaxParallelWorkers, ⌊1.5 * cpus⌋), blockCount)` with
`MaxParallelWorkers = 16`. -/
theorem getOptimalWorkerCount_formula (cpu blockCount : Nat)
    (hcpu : MinParallelWorkers ≤ cpu)
    (hbc : ParallelThreshold ≤ blockCount) :
    (ParallelCrypto.New cpu).GetOptimalWorkerCount blockCount =
      min (min MaxParallelWorkers (3 * cpu / 2)) blockCount := by
  unfold ParallelCrypto.GetOptimalWorkerCount ParallelCrypto.New intTimes15
  simp only [MinParallelWorkers, ParallelThreshold, MaxParallelWorkers] at *
  norm_num
  split_ifs <;> omega

/-- C7 (witness): the amended worker-count formula evaluated at 4 CPUs and
8 blocks. -/
theorem getOptimalWorkerCount_formula_witness :
    (ParallelCrypto.New 4).GetOptimalWorkerCount 8 =
      min (min MaxParallelWorkers (3 * 4 / 2)) 8 :=
  getOptimalWorkerCount_formula 4 8 (by decide) (by decide)

/-- Joining `m` regular shards of width `g` yields the interval
`[0, m*g)`. -/
theorem range'_shards (g : Nat) :
    ∀ m, (List.range m).flatMap (fun i => List.range' (i * g) g) =
      List.range' 0 (m * g) := by
  intro m
  induction m with
  | zero => simp
  | succ k ih =>
    rw [List.range_succ, List.flatMap_append, ih]
    have h := List.range'_append 0 (k * g) g 1
    simp only [List.flatMap_cons, List.flatMap_nil, List.append_nil]
    simpa [Nat.succ_mul, Nat.add_comm] using h

/-- The Go shard boundaries of `ProcessBlocksParallel` — `groupSize :=
blockCount / workers`, worker `w` covering `[w*groupSize, (w+1)*groupSize)`
and the last worker absorbing the remainder — partition `[0, blockCount)`
exactly. -/
theorem shards_cover (w n : Nat) (hw : 1 ≤ w) (hwn : w ≤ n) :
    (List.range w).flatMap (fun workerID =>
      List.range' (workerID * (n / w))
        ((if workerID = w - 1 then n else (workerID + 1) * (n / w)) -
          workerID * (n / w))) = List.range n := by
  obtain ⟨k, rfl⟩ : ∃ k, w = k + 1 := ⟨w - 1, by omega⟩
  have hkgn : k * (n / (k + 1)) ≤ n := by
    have h1 : n / (k + 1) * (k + 1) ≤ n := Nat.div_mul_le_self n (k + 1)
    have h2 : k * (n / (k + 1)) ≤ n / (k + 1) * (k + 1) := by
      rw [Nat.mul_comm]
      exact Nat.mul_le_mul_left _ (by omega)
    omega
  rw [List.range_succ, List.flatMap_append]
  have hfirst : (List.range k).flatMap (fun workerID =>
      List.range' (workerID * (n / (k + 1)))
        ((if workerID = k + 1 - 1 then n
          else (workerID + 1) * (n / (k + 1))) -
          workerID * (n / (k + 1)))) =
      (List.range k).flatMap (fun i =>
        List.range' (i * (n / (k + 1))) (n / (k + 1))) := by
    show ((List.range k).map _).flatten = ((List.range k).map _).flatten
    congr 1
    apply List.map_congr_left
    intro a ha
    have halt : a < k := List.mem_range.mp ha
    have hne : ¬a = k + 1 - 1 := by
      simp only [Nat.add_sub_cancel]
      exact Nat.ne_of_lt halt
    rw [if_neg hne]
    have hsub : ∀ g : Nat, (a + 1) * g - a * g = g := fun g => by
      rw [Nat.succ_mul]
      omega
    rw [hsub]
  rw [hfirst, range'_shards]
  have hifk : (if k = k + 1 - 1 then n else (k + 1) * (n / (k + 1))) =
      n := by
    rw [if_pos (by omega)]
  simp only [List.flatMap_cons, List.flatMap_nil, List.append_nil, hifk]
  have happ := List.range'_append 0 (k * (n / (k + 1)))
    (n - k * (n / (k + 1))) 1
  simp only [Nat.one_mul, Nat.zero_add] at happ
  rw [happ, Nat.sub_add_cancel hkgn]
  exact (List.range_eq_range' n).symm

/-- When `ShouldUseParallel` holds, the chosen worker count is between 1
and the block count. -/
theorem workerCount_bounds (pc : ParallelCrypto) (n : Nat)
    (h : pc.ShouldUseParallel n = true) :
    1 ≤ pc.GetOptimalWorkerCount n ∧ pc.GetOptimalWorkerCount n ≤ n := by
  have hn : ParallelThreshold ≤ n := by
    unfold ParallelCrypto.ShouldUseParallel at h
    by_cases he : pc.enabled
    · by_cases hc : pc.cpuCount < MinParallelWorkers
      · simp [he, hc] at h
      · simpa [he, hc] using h
    · simp [he] at h
  simp only [ParallelCrypto.GetOptimalWorkerCount]
  simp only [ParallelThreshold, MinParallelWorkers, MaxParallelWorkers,
    intTimes15, intTimes12] at hn ⊢
  split_ifs <;> omega

/-- Mapping a function over each shard's results commutes with running the
shards: `ProcessBlocksParallel` applied to a per-shard `map` equals the
`map` of `ProcessBlocksParallel`. -/
theorem processBlocksParallel_map {α β : Type} (pc : ParallelCrypto)
    (n : Nat) (g : Nat → Nat → List α) (f : α → β) :
    pc.ProcessBlocksParallel n (fun s e => (g s e).map f) =
      (pc.ProcessBlocksParallel n g).map f := by
  unfold ParallelCrypto.ProcessBlocksParallel
  split
  · rw [List.map_flatMap]
  · rfl

/-- C8: the index ranges `ProcessBlocksParallel` passes to the worker
function are well-formed, contiguous, pairwise disjoint and cover
`[0, blockCount)` exactly once — their concatenation in worker order is
precisely `0, 1, ..., blockCount-1` — and consequently the parallel
decryption path produces the per-block plaintexts in increasing
block-number order, independent of which shard a block fell into. -/
theorem processBlocksParallel_order (pc : ParallelCrypto) (n : Nat) :
    pc.ProcessBlocksParallel n (fun s e => List.range' s (e - s)) =
      List.range n ∧
    (∀ r ∈ pc.ProcessBlocksParallel n
      (fun s e => [((s : Nat), (e : Nat))]), r.1 ≤ r.2) ∧
    (∀ (be : ContentEnc) (cipherBlocks : List (List Nat))
      (firstBlockNo : Nat) (fileID : List Nat),
      be.decryptBlocksParallel pc cipherBlocks firstBlockNo fileID =
        (List.range cipherBlocks.length).map fun i =>
          be.DecryptBlock (cipherBlocks.getD i []) (firstBlockNo + i)
            fileID) := by
  have hcover : ∀ m : Nat, pc.ProcessBlocksParallel m
      (fun s e => List.range' s (e - s)) = List.range m := by
    intro m
    unfold ParallelCrypto.ProcessBlocksParallel
    split
    · rename_i hpar
      obtain ⟨hw1, hwm⟩ := workerCount_bounds pc m hpar
      exact shards_cover (pc.GetOptimalWorkerCount m) m hw1 hwm
    · simp [List.range_eq_range']
  refine ⟨hcover n, ?_, ?_⟩
  · intro r hr
    unfold ParallelCrypto.ProcessBlocksParallel at hr
    split at hr
    · rename_i hpar
      obtain ⟨hw1, hwn⟩ := workerCount_bounds pc n hpar
      simp only [List.mem_flatMap, List.mem_range, List.mem_singleton]
        at hr
      obtain ⟨wid, hwid, hpr⟩ := hr
      subst hpr
      dsimp only
      split_ifs with hlast
      · subst hlast
        calc (pc.GetOptimalWorkerCount n - 1) *
              (n / pc.GetOptimalWorkerCount n) ≤
            pc.GetOptimalWorkerCount n * (n / pc.GetOptimalWorkerCount n)
              := Nat.mul_le_mul_right _ (by omega)
          _ ≤ n := by
              rw [Nat.mul_comm]
              exact Nat.div_mul_le_self n _
      · exact Nat.mul_le_mul_right _ (by omega)
    · simp only [List.mem_singleton] at hr
      subst hr
      exact Nat.zero_le n
  · intro be cipherBlocks firstBlockNo fileID
    unfold ContentEnc.decryptBlocksParallel
    rw [processBlocksParallel_map pc cipherBlocks.length
      (fun s e => List.range' s (e - s))
      (fun i => be.DecryptBlock (cipherBlocks.getD i []) (firstBlockNo + i)
        fileID)]
    rw [hcover cipherBlocks.length]

/-- C8 (witness): the shard covering, the well-formedness of a concrete
shard and the order-preservation of the parallel decryption path,
instantiated on a 4-CPU instance. -/
theorem processBlocksParallel_order_witness :
    (ParallelCrypto.New 4).ProcessBlocksParallel 10
      (fun s e => List.range' s (e - s)) = List.range 10 ∧
    ((0, 1) : Nat × Nat).1 ≤ ((0, 1) : Nat × Nat).2 ∧
    toyBe.decryptBlocksParallel (ParallelCrypto.New 4) [[], []] 0 fid16 =
      (List.range ([[], []] : List (List Nat)).length).map (fun i =>
        toyBe.DecryptBlock (([[], []] : List (List Nat)).getD i [])
          (0 + i) fid16) :=
  ⟨(processBlocksParallel_order (ParallelCrypto.New 4) 10).1,
   (processBlocksParallel_order (ParallelCrypto.New 4) 10).2.1 (0, 1)
     (by decide),
   (processBlocksParallel_order (ParallelCrypto.New 4) 2).2.2 toyBe
     [[], []] 0 fid16⟩

theorem b64EncChar_ne_sep (v : Nat) : b64EncChar v ≠ 46 := by
  unfold b64EncChar
  split_ifs <;> omega

theorem b64EncChar_ne_pad (v : Nat) : b64EncChar v ≠ 61 := by
  unfold b64EncChar
  split_ifs <;> omega

theorem b64DecVal_encChar (v : Nat) (h : v < 64) :
    b64DecVal (b64EncChar v) = some v := by
  interval_cases v <;> decide

/-- Quantum decoding inverts encoding on byte strings. -/
theorem decodeB64Quanta_encodeB64 (m : List Nat) (hb : ∀ b ∈ m, b < 256) :
    decodeB64Quanta (encodeB64 m) = some m := by
  induction m using encodeB64.induct with
  | case1 => rfl
  | case2 b0 =>
    have h0 : b0 < 256 := hb b0 (by simp)
    show decodeB64Quanta [b64EncChar (b0 / 4), b64EncChar (b0 % 4 * 16),
      61, 61] = some [b0]
    have e1 : b0 / 4 * 4 + b0 % 4 * 16 / 16 = b0 := by omega
    simp only [decodeB64Quanta]
    rw [b64DecVal_encChar _ (by omega), b64DecVal_encChar _ (by omega)]
    simp [e1]
    all_goals omega
  | case3 b0 b1 =>
    have h0 : b0 < 256 := hb b0 (by simp)
    have h1 : b1 < 256 := hb b1 (by simp)
    show decodeB64Quanta [b64EncChar (b0 / 4),
      b64EncChar (b0 % 4 * 16 + b1 / 16), b64EncChar (b1 % 16 * 4), 61] =
      some [b0, b1]
    have e1 : b0 / 4 * 4 + (b0 % 4 * 16 + b1 / 16) / 16 = b0 := by omega
    have e2 : (b0 % 4 * 16 + b1 / 16) % 16 * 16 + b1 % 16 * 4 / 4 = b1 := by
      omega
    have hp := b64EncChar_ne_pad (b1 % 16 * 4)
    simp only [decodeB64Quanta]
    rw [b64DecVal_encChar _ (by omega), b64DecVal_encChar _ (by omega),
      b64DecVal_encChar _ (by omega)]
    simp [hp, e1, e2]
    all_goals omega
  | case4 b0 b1 b2 rest ih =>
    have h0 : b0 < 256 := hb b0 (by simp)
    have h1 : b1 < 256 := hb b1 (by simp)
    have h2 : b2 < 256 := hb b2 (by simp)
    have hrest : ∀ b ∈ rest, b < 256 := fun b hbm => hb b (by simp [hbm])
    show decodeB64Quanta ([b64EncChar (b0 / 4),
      b64EncChar (b0 % 4 * 16 + b1 / 16),
      b64EncChar (b1 % 16 * 4 + b2 / 64), b64EncChar (b2 % 64)] ++
        encodeB64 rest) = some (b0 :: b1 :: b2 :: rest)
    have e1 : b0 / 4 * 4 + (b0 % 4 * 16 + b1 / 16) / 16 = b0 := by omega
    have e2 : (b0 % 4 * 16 + b1 / 16) % 16 * 16 +
        (b1 % 16 * 4 + b2 / 64) / 4 = b1 := by omega
    have e3 : (b1 % 16 * 4 + b2 / 64) % 4 * 64 + b2 % 64 = b2 := by omega
    have hp1 := b64EncChar_ne_pad (b1 % 16 * 4 + b2 / 64)
    have hp2 := b64EncChar_ne_pad (b2 % 64)
    simp only [List.cons_append, List.nil_append, decodeB64Quanta]
    rw [b64DecVal_encChar _ (by omega), b64DecVal_encChar _ (by omega),
      b64DecVal_encChar _ (by omega), b64DecVal_encChar _ (by omega)]
    simp [hp1, hp2, ih hrest, e1, e2, e3]

theorem b64EncChar_ge (v : Nat) : 45 ≤ b64EncChar v := by
  unfold b64EncChar
  split_ifs <;> omega

theorem b64EncChar_not_newline (v : Nat) :
    ((b64EncChar v != 10) && (b64EncChar v != 13)) = true := by
  have h := b64EncChar_ge v
  simp only [Bool.and_eq_true, bne_iff_ne]
  omega

/-- An encoding contains no `\r`/`\n` bytes, so Go's newline skipping
leaves it untouched. -/
theorem filter_newline_encodeB64 (m : List Nat) :
    (encodeB64 m).filter (fun c => c != 10 && c != 13) = encodeB64 m := by
  induction m using encodeB64.induct with
  | case1 => rfl
  | case2 b0 =>
    simp [encodeB64, List.filter_cons, b64EncChar_not_newline]
  | case3 b0 b1 =>
    simp [encodeB64, List.filter_cons, b64EncChar_not_newline]
  | case4 b0 b1 b2 rest ih =>
    simp [encodeB64, List.filter_cons, List.filter_append,
      b64EncChar_not_newline, ih]

/-- Decoding inverts encoding on byte strings (Go guarantees the same for
`DecodeString ∘ EncodeToString`). -/
theorem decodeB64_encodeB64 (m : List Nat) (hb : ∀ b ∈ m, b < 256) :
    decodeB64 (encodeB64 m) = some m := by
  unfold decodeB64
  rw [filter_newline_encodeB64]
  exact decodeB64Quanta_encodeB64 m hb

/-- The separator byte never occurs in a base64url encoding, so splitting
at the last separator recovers the name/MAC boundary. -/
theorem sep_not_mem_encodeB64 (m : List Nat) : (46 : Nat) ∉ encodeB64 m := by
  intro h
  induction m using encodeB64.induct with
  | case1 => simp [encodeB64] at h
  | case2 b0 =>
    simp [encodeB64] at h
    rcases h with h | h <;> exact b64EncChar_ne_sep _ h.symm
  | case3 b0 b1 =>
    simp [encodeB64] at h
    rcases h with h | h | h <;> exact b64EncChar_ne_sep _ h.symm
  | case4 b0 b1 b2 rest ih =>
    simp [encodeB64] at h
    rcases h with h | h | h | h | h <;>
      first
        | exact b64EncChar_ne_sep _ h.symm
        | exact ih h

theorem lastIndexOfSep_eq_none (s : List Nat)
    (h : FilenameAuthSeparator ∉ s) : lastIndexOfSep s = none := by
  induction s with
  | nil => rfl
  | cons c rest ih =>
    have hc : ¬c = FilenameAuthSeparator := by
      intro hh
      exact h (by simp [hh])
    have hr : FilenameAuthSeparator ∉ rest := fun hm => h (by simp [hm])
    simp [lastIndexOfSep, ih hr, hc]

theorem lastIndexOfSep_append (p sfx : List Nat)
    (h : FilenameAuthSeparator ∉ sfx) :
    lastIndexOfSep (p ++ FilenameAuthSeparator :: sfx) = some p.length := by
  induction p with
  | nil => simp [lastIndexOfSep, lastIndexOfSep_eq_none sfx h]
  | cons c rest ih => simp [lastIndexOfSep, ih]

theorem splitAuthenticatedName_append (p sfx : List Nat)
    (h : FilenameAuthSeparator ∉ sfx) :
    splitAuthenticatedName (p ++ FilenameAuthSeparator :: sfx) =
      [p, sfx] := by
  simp only [splitAuthenticatedName, lastIndexOfSep_append p sfx h]
  rw [List.take_left p, ← List.drop_drop 1 p.length, List.drop_left]
  rfl

/-- C9 (counterexample): with filename authentication enabled,
`VerifyFilename` also accepts suffixes that are **not** the base64url
encoding of the MAC, refuting the claim's "only if".  Two witnesses:
Go's default (non-strict) base64 decoder ignores the unused trailing bits
of the final quantum, so a suffix differing from the canonical encoding in
those bits still decodes to the correct MAC and is accepted; and the
decoder skips `\n`/`\r` bytes anywhere, so a newline prepended to the
canonical encoding is accepted as well. -/
theorem verifyFilename_noncanonical_mac_accepted :
    toyFaZero.VerifyFilename ([97] ++ FilenameAuthSeparator ::
      (List.replicate 42 65 ++ [66, 61])) = Except.ok [97] ∧
    List.replicate 42 65 ++ [66, 61] ≠
      encodeB64 (toyFaZero.calculateMAC [97]) ∧
    toyFaZero.VerifyFilename ([97] ++ FilenameAuthSeparator ::
      10 :: encodeB64 (toyFaZero.calculateMAC [97])) = Except.ok [97] ∧
    10 :: encodeB64 (toyFaZero.calculateMAC [97]) ≠
      encodeB64 (toyFaZero.calculateMAC [97]) :=
  ⟨rfl, by decide, rfl, by decide⟩

/-- C9 (amended): with filename authentication enabled and the MAC
producing bytes (as HMAC-SHA256 does), authenticate-then-verify returns
the original name with no error; and for every name and separator-free
suffix, `VerifyFilename` accepts `name ++ "." ++ suffix` returning `name`
if and only if the suffix base64url-decodes to the MAC of `name` under
Go's default decoder — which skips `\r`/`\n` bytes anywhere and ignores
the unused trailing bits of the final quantum — the canonical encoding
being one such suffix; any decode failure or MAC mismatch yields an
error. -/
theorem verifyFilename_spec (fa : FilenameAuth)
    (hen : fa.enabled = true)
    (hmac : ∀ s b, b ∈ fa.calculateMAC s → b < 256) :
    (∀ n, fa.VerifyFilename (fa.AuthenticateFilename n) = Except.ok n) ∧
    (∀ p sfx, FilenameAuthSeparator ∉ sfx →
      (fa.VerifyFilename (p ++ FilenameAuthSeparator :: sfx) =
          Except.ok p ↔
        decodeB64 sfx = some (fa.calculateMAC p))) := by
  have hiff : ∀ p sfx, FilenameAuthSeparator ∉ sfx →
      (fa.VerifyFilename (p ++ FilenameAuthSeparator :: sfx) =
          Except.ok p ↔
        decodeB64 sfx = some (fa.calculateMAC p)) := by
    intro p sfx hsep
    unfold FilenameAuth.VerifyFilename
    rw [hen]
    simp only [if_true]
    rw [splitAuthenticatedName_append p sfx hsep]
    cases hdec : decodeB64 sfx with
    | none => simp [hdec]
    | some mac =>
      by_cases hm : mac = fa.calculateMAC p
      · subst hm
        simp [hdec]
      · simp [hdec, hm]
  refine ⟨?_, hiff⟩
  intro n
  have hsep := sep_not_mem_encodeB64 (fa.calculateMAC n)
  have hauth : fa.AuthenticateFilename n =
      n ++ FilenameAuthSeparator :: encodeB64 (fa.calculateMAC n) := by
    unfold FilenameAuth.AuthenticateFilename
    rw [hen]
    simp
  rw [hauth]
  exact (hiff n _ hsep).mpr
    (decodeB64_encodeB64 _ (fun b hb => hmac n b hb))

/-- C9 (witness): authenticate-then-verify round-trips on a concrete name
containing a dot, over a concrete enabled instance. -/
theorem verifyFilename_spec_witness :
    toyFa.VerifyFilename (toyFa.AuthenticateFilename [97, 46, 98]) =
      Except.ok [97, 46, 98] :=
  (verifyFilename_spec toyFa rfl (fun s b hb => by
    simp [toyFa] at hb
    rcases hb with h | h <;> omega)).1 [97, 46, 98]

end Gocryptfs
